import Mathlib

/-!
Shallow embedding of the JSONL schema-discovery tool (src/jsonl.rs) and
verification of its specification claims.

JSON values are modelled by the inductive `Jsonl.Value` (mirroring
`serde_json::Value`; number content is irrelevant to every analysed
operation, so numbers carry an `Int`).  The Rust `String` order used by
`BTreeMap`, `Vec::sort`, and the `sort_by` comparators is byte-wise
lexicographic over UTF-8, which coincides with code-point lexicographic
order; it is modelled by the executable `Jsonl.strLtB` below.
-/

namespace Jsonl

/-- Model of `serde_json::Value`: null, booleans, numbers, strings, arrays, objects.
Objects are finite association lists of field name and value. -/
inductive Value where
  | null : Value
  | bool : Bool → Value
  | num : Int → Value
  | str : String → Value
  | arr : List Value → Value
  | obj : List (String × Value) → Value

/-- Whether a value is a JSON object (`Value::Object` in Rust). -/
def Value.isObj : Value → Bool
  | .obj _ => true
  | _ => false

/-- Strict lexicographic order on lists given a strict order on elements:
models Rust's `Ord` for sequences (element-wise, then shorter-first). -/
def lexLt (lt : α → α → Bool) : List α → List α → Bool
  | [], [] => false
  | [], _ :: _ => true
  | _ :: _, [] => false
  | a :: as_, b :: bs =>
    if lt a b then true
    else if lt b a then false
    else lexLt lt as_ bs

/-- Strict order on `Char` by code point (Rust compares UTF-8 bytes; for
whole strings the induced lexicographic orders agree). -/
def charLtB (a b : Char) : Bool := decide (a < b)

/-- Rust `String` strict `Ord`: lexicographic on the character sequence. -/
def strLtB (a b : String) : Bool := lexLt charLtB a.data b.data

/-- Rust `String` non-strict order: `a <= b` iff `¬ b < a`. -/
def strLeB (a b : String) : Bool := !(strLtB b a)

/-- Rust `Vec<String>` strict `Ord` (lexicographic over `String` order). -/
def strListLtB (a b : List String) : Bool := lexLt strLtB a b

/-- Rust `Vec<String>` non-strict order. -/
def strListLeB (a b : List String) : Bool := !(strListLtB b a)

/-- The `String` total order as a `Prop` relation, for sorting. -/
def strLE (a b : String) : Prop := strLeB a b = true

instance : DecidableRel strLE := fun a b =>
  inferInstanceAs (Decidable (strLeB a b = true))

mutual
/-- Model of `JsonlData::collect_row_keys` (src/jsonl.rs:363-394), reified as the
stream of key paths on which the Rust code increments `key_counts`, in
traversal order: an object emits each field's qualified path and recurses;
an array emits nothing itself and recurses into its elements under a
bracketed-index prefix; scalars emit nothing. -/
def collect_row_keys : Value → String → List String
  | .obj fields, pfx => collect_row_keys_obj fields pfx
  | .arr elems, pfx => collect_row_keys_arr elems 0 pfx
  | _, _ => []

/-- Object branch of `collect_row_keys`: iterate the fields in order. -/
def collect_row_keys_obj : List (String × Value) → String → List String
  | [], _ => []
  | (k, v) :: rest, pfx =>
    let full_key := if pfx = "" then k else pfx ++ "." ++ k
    (full_key :: collect_row_keys v full_key) ++ collect_row_keys_obj rest pfx

/-- Array branch of `collect_row_keys`: enumerate elements from index `i`. -/
def collect_row_keys_arr : List Value → Nat → String → List String
  | [], _, _ => []
  | v :: rest, i, pfx =>
    let array_key := if pfx = "" then "[" ++ toString i ++ "]"
                     else pfx ++ "[" ++ toString i ++ "]"
    collect_row_keys v array_key ++ collect_row_keys_arr rest (i + 1) pfx
end

mutual
/-- Model of `JsonlData::collect_keys_from_value` (src/jsonl.rs:402-427), reified as
the stream of key paths the Rust code inserts into the `HashSet`, in
traversal order. -/
def collect_keys_from_value : Value → String → List String
  | .obj fields, pfx => collect_keys_from_value_obj fields pfx
  | .arr elems, pfx => collect_keys_from_value_arr elems 0 pfx
  | _, _ => []

/-- Object branch of `collect_keys_from_value`. -/
def collect_keys_from_value_obj : List (String × Value) → String → List String
  | [], _ => []
  | (k, v) :: rest, pfx =>
    let full_key := if pfx = "" then k else pfx ++ "." ++ k
    (full_key :: collect_keys_from_value v full_key)
      ++ collect_keys_from_value_obj rest pfx

/-- Array branch of `collect_keys_from_value`. -/
def collect_keys_from_value_arr : List Value → Nat → String → List String
  | [], _, _ => []
  | v :: rest, i, pfx =>
    let array_key := if pfx = "" then "[" ++ toString i ++ "]"
                     else pfx ++ "[" ++ toString i ++ "]"
    collect_keys_from_value v array_key
      ++ collect_keys_from_value_arr rest (i + 1) pfx
end

/-- All key-path emissions of the whole dataset: `analyze_json_keys`'s loop
`for value in self.reader.iter() { collect_row_keys(value, ..) }`. -/
def all_emissions (records : List Value) : List String :=
  records.flatMap (fun r => collect_row_keys r "")

/-- The `BTreeMap<String, usize>` built by `analyze_json_keys`, read out by
`into_iter()`: the distinct emitted key paths in ascending `String` order,
each with its total emission count. -/
def btree_counts (records : List Value) : List (String × Nat) :=
  (List.insertionSort strLE (all_emissions records).dedup).map
    (fun k => (k, (all_emissions records).count k))

/-- The `sort_by` comparator of `analyze_json_keys` (src/jsonl.rs:358) as a
non-strict total order: `a` may precede `b` iff `b.count < a.count`, or the
counts are equal and `a.key <= b.key`. -/
def freqLE (a b : String × Nat) : Prop :=
  b.2 < a.2 ∨ (a.2 = b.2 ∧ strLeB a.1 b.1 = true)

instance : DecidableRel freqLE := fun a b =>
  inferInstanceAs (Decidable (b.2 < a.2 ∨ (a.2 = b.2 ∧ strLeB a.1 b.1 = true)))

/-- Model of `JsonlData::analyze_json_keys` (src/jsonl.rs:350-361): count every key
path across the dataset, then sort by descending count, ties broken by
ascending key path. -/
def analyze_json_keys (records : List Value) : List (String × Nat) :=
  List.insertionSort freqLE (btree_counts records)

/-- Model of `JsonlData::get_all_keys_seen_across_dataset` (src/jsonl.rs:443-446):
the key domain of `analyze_json_keys`, as a duplicate-free list standing
for the Rust `HashSet<String>`. -/
def get_all_keys_seen_across_dataset (records : List Value) : List String :=
  (analyze_json_keys records).map Prod.fst

/-- Model of `JsonlData::get_keys_in_row` (src/jsonl.rs:396-400): the set of key
paths of one record, as a duplicate-free list standing for the `HashSet`. -/
def get_keys_in_row (v : Value) : List String :=
  (collect_keys_from_value v "").dedup

/-- Model of `JsonlData::identify_rows_with_missing_keys` (src/jsonl.rs:429-441):
indices of records whose key set misses at least one key of the dataset's
global key set, in record order. -/
def identify_rows_with_missing_keys (records : List Value) : List Nat :=
  (records.enum).filterMap (fun iv =>
    if (get_all_keys_seen_across_dataset records).any
        (fun k => !((get_keys_in_row iv.2).contains k))
    then some iv.1 else none)

/-- The fingerprint stream of `get_top_key_combinations`: for each record
that is an object, its sorted list of direct field names; other records
contribute nothing. -/
def fingerprints (records : List Value) : List (List String) :=
  records.filterMap (fun v =>
    match v with
    | .obj fields => some (List.insertionSort strLE (fields.map Prod.fst))
    | _ => none)

/-- The `sort_by` comparator of `get_top_key_combinations`
(src/jsonl.rs:345) as a non-strict total order: descending count, ties
broken by ascending `Vec<String>` lexicographic order. -/
def comboLE (a b : List String × Nat) : Prop :=
  b.2 < a.2 ∨ (a.2 = b.2 ∧ strListLeB a.1 b.1 = true)

instance : DecidableRel comboLE := fun a b =>
  inferInstanceAs (Decidable (b.2 < a.2 ∨ (a.2 = b.2 ∧ strListLeB a.1 b.1 = true)))

/-- The `combination_freqs: HashMap<Vec<String>, usize>` of
`get_top_key_combinations`, read out as entries: each distinct fingerprint
with the number of records bearing it.  (`HashMap` iteration order is
arbitrary in Rust; the subsequent `sort_by` comparator is total on entries
with distinct fingerprints, so the final output is order-independent.) -/
def combination_counts (records : List Value) : List (List String × Nat) :=
  (fingerprints records).dedup.map
    (fun f => (f, (fingerprints records).count f))

/-- Model of `JsonlData::get_top_key_combinations` (src/jsonl.rs:332-348): count the
distinct fingerprints, sort by descending count then ascending fingerprint,
and keep the first `n`. -/
def get_top_key_combinations (records : List Value) (n : Nat) :
    List (List String × Nat) :=
  (List.insertionSort comboLE (combination_counts records)).take n

/-- The `std::io::ErrorKind` values the embedded code constructs:
`InvalidData` wraps a JSON parse failure, `InvalidInput` an out-of-range
index. -/
inductive ErrorKind where
  | invalidData : ErrorKind
  | invalidInput : ErrorKind
deriving DecidableEq

/-- Model of `std::io::Error` as the code builds it: a kind plus a message. -/
structure IoError where
  kind : ErrorKind
  msg : String
deriving DecidableEq

/-- The `HttpError` enum of src/jsonl.rs:13-19. -/
inductive HttpError where
  | ioErr : String → HttpError
  | json : String → HttpError
  | network : String → HttpError
  | other : String → HttpError
deriving DecidableEq

/-- Rust `line.trim().is_empty()`: every character is whitespace. -/
def isBlankLine (line : String) : Bool := line.data.all Char.isWhitespace

/-- Model of `FileJsonlReader::load` (src/jsonl.rs:97-113) after a successful file
open, the file abstracted as its list of lines: skip blank lines, parse the
rest in order, and fail with an `InvalidData` error on the first line the
supplied parser (standing for `serde_json::from_str`) rejects. -/
def FileJsonlReader.load (parse : String → Except String Value) :
    List String → Except IoError (List Value)
  | [] => .ok []
  | line :: rest =>
    if isBlankLine line then FileJsonlReader.load parse rest
    else
      match parse line with
      | .error e => .error { kind := .invalidData, msg := e }
      | .ok v => (FileJsonlReader.load parse rest).map (fun vs => v :: vs)

/-- Model of `MemoryJsonlReader::replace` (src/jsonl.rs:193-203): in-bounds indices
overwrite the record, others fail with an `InvalidInput` error and leave
the data untouched. -/
def MemoryJsonlReader.replace (data : List Value) (index : Nat)
    (value : Value) : Except IoError (List Value) :=
  if index < data.length then .ok (data.set index value)
  else .error { kind := .invalidInput
              , msg := "Index " ++ toString index ++ " out of bounds" }

/-- Model of `HttpJsonlReader::load` (src/jsonl.rs:237-245): the placeholder backend
unconditionally fails, whatever its URL or current data. -/
def HttpJsonlReader.load (url : String) (data : List Value) :
    Except HttpError Unit :=
  .error (.other "HTTP reader not yet implemented")

/-- The `JsonlData` handle (src/jsonl.rs:283-288): the reader's records
plus the three cached analysis results.  The Rust `Option` wrappers are
always `Some` from construction on, so the caches are stored directly. -/
structure JsonlData where
  data : List Value
  keys_seen : List String
  key_freqs : List (String × Nat)
  rows_with_missing_keys : List Nat

/-- The analysis step shared by `JsonlData::new` (src/jsonl.rs:309-311) and
`JsonlData::replace_record` (src/jsonl.rs:553-555): compute all three
cached results from the current records. -/
def JsonlData.ofRecords (records : List Value) : JsonlData :=
  { data := records
  , keys_seen := get_all_keys_seen_across_dataset records
  , key_freqs := analyze_json_keys records
  , rows_with_missing_keys := identify_rows_with_missing_keys records }

/-- Model of `JsonlData::new` over a `MemoryJsonlReader` (whose `load` is a no-op
`Ok(())`): always yields a fully analysed handle. -/
def JsonlData.newMemory (records : List Value) : Except IoError JsonlData :=
  .ok (JsonlData.ofRecords records)

/-- Model of `JsonlData::new` over a `FileJsonlReader`: `reader.load()?` then the
analysis; a load failure aborts construction. -/
def JsonlData.newFile (parse : String → Except String Value)
    (lines : List String) : Except IoError JsonlData :=
  (FileJsonlReader.load parse lines).map JsonlData.ofRecords

/-- Model of `JsonlData::new` over an `HttpJsonlReader`: `reader.load()?` then the
analysis. -/
def JsonlData.newHttp (url : String) (data : List Value) :
    Except HttpError JsonlData :=
  match HttpJsonlReader.load url data with
  | .error e => .error e
  | .ok _ => .ok (JsonlData.ofRecords data)

/-- Model of `JsonlData::replace_record` (src/jsonl.rs:549-558): delegate to the
reader's `replace`; on success recompute every cached result, on failure
return the error with the handle exactly as it was (`?` returns before any
field is written). -/
def JsonlData.replace_record (d : JsonlData) (record_id : Nat)
    (new_json : Value) : Except IoError Unit × JsonlData :=
  match MemoryJsonlReader.replace d.data record_id new_json with
  | .error e => (.error e, d)
  | .ok newData => (.ok (), JsonlData.ofRecords newData)

/-! ## Order lemmas for the modelled Rust comparators -/

theorem lexLt_asymm (lt : α → α → Bool)
    (hasymm : ∀ a b, lt a b = true → lt b a = false) :
    ∀ as_ bs, lexLt lt as_ bs = true → lexLt lt bs as_ = false
  | [], [], _ => rfl
  | [], _ :: _, _ => rfl
  | _ :: _, [], h => by simp [lexLt] at h
  | a :: as_, b :: bs, h => by
    simp only [lexLt] at h ⊢
    rcases h1 : lt a b with _ | _
    · rcases h2 : lt b a with _ | _
      · simp only [h1, h2, Bool.false_eq_true, if_false] at h ⊢
        exact lexLt_asymm lt hasymm as_ bs h
      · simp [h1, h2] at h
    · have h2 := hasymm a b h1
      simp [h1, h2]

theorem lexLt_connex (lt : α → α → Bool)
    (hconnex : ∀ a b, lt a b = false → lt b a = false → a = b) :
    ∀ as_ bs, lexLt lt as_ bs = false → lexLt lt bs as_ = false → as_ = bs
  | [], [], _, _ => rfl
  | [], _ :: _, h, _ => by simp [lexLt] at h
  | _ :: _, [], _, h => by simp [lexLt] at h
  | a :: as_, b :: bs, h, h' => by
    simp only [lexLt] at h h'
    rcases h1 : lt a b with _ | _ <;>
      rcases h2 : lt b a with _ | _ <;>
      simp [h1, h2] at h h'
    rw [hconnex a b h1 h2, lexLt_connex lt hconnex as_ bs h h']

theorem lexLt_trans (lt : α → α → Bool)
    (htrans : ∀ a b c, lt a b = true → lt b c = true → lt a c = true)
    (hconnex : ∀ a b, lt a b = false → lt b a = false → a = b) :
    ∀ as_ bs cs, lexLt lt as_ bs = true → lexLt lt bs cs = true →
      lexLt lt as_ cs = true
  | [], _, _ :: _, _, _ => rfl
  | [], b :: bs, [], _, h2 => by simp [lexLt] at h2
  | [], [], [], h1, _ => by simp [lexLt] at h1
  | _ :: _, [], _, h1, _ => by simp [lexLt] at h1
  | _ :: _, _ :: _, [], _, h2 => by simp [lexLt] at h2
  | a :: as_, b :: bs, c :: cs, h1, h2 => by
    simp only [lexLt] at h1 h2 ⊢
    rcases hab : lt a b with _ | _
    · rcases hba : lt b a with _ | _
      · have hab' := hconnex a b hab hba
        subst hab'
        simp only [hab, Bool.false_eq_true, if_false] at h1
        rcases hac : lt a c with _ | _
        · rcases hca : lt c a with _ | _
          · simp only [hac, hca, Bool.false_eq_true, if_false] at h2 ⊢
            exact lexLt_trans lt htrans hconnex as_ bs cs h1 h2
          · simp [hac, hca] at h2
        · simp [hac]
      · simp [hab, hba] at h1
    · rcases hbc : lt b c with _ | _
      · rcases hcb : lt c b with _ | _
        · have hbc' := hconnex b c hbc hcb
          subst hbc'
          simp [hab]
        · simp [hbc, hcb] at h2
      · simp [htrans a b c hab hbc]

theorem charLtB_asymm (a b : Char) : charLtB a b = true → charLtB b a = false := by
  simp only [charLtB, decide_eq_true_eq, decide_eq_false_iff_not]
  exact lt_asymm

theorem charLtB_trans (a b c : Char) :
    charLtB a b = true → charLtB b c = true → charLtB a c = true := by
  simp only [charLtB, decide_eq_true_eq]
  exact lt_trans

theorem charLtB_connex (a b : Char) :
    charLtB a b = false → charLtB b a = false → a = b := by
  simp only [charLtB, decide_eq_false_iff_not]
  intro h1 h2
  exact le_antisymm (le_of_not_lt h2) (le_of_not_lt h1)

theorem strLtB_asymm (a b : String) : strLtB a b = true → strLtB b a = false :=
  lexLt_asymm charLtB charLtB_asymm a.data b.data

theorem strLtB_trans (a b c : String) :
    strLtB a b = true → strLtB b c = true → strLtB a c = true :=
  lexLt_trans charLtB charLtB_trans charLtB_connex a.data b.data c.data

theorem strLtB_connex (a b : String) :
    strLtB a b = false → strLtB b a = false → a = b := by
  intro h1 h2
  exact congrArg String.mk (lexLt_connex charLtB charLtB_connex a.data b.data h1 h2)

theorem strLeB_total (a b : String) : strLeB a b = true ∨ strLeB b a = true := by
  simp only [strLeB, Bool.not_eq_true', Bool.not_eq_false]
  rcases h : strLtB b a with _ | _
  · exact Or.inl rfl
  · exact Or.inr (strLtB_asymm b a h)

theorem strLeB_trans (a b c : String) :
    strLeB a b = true → strLeB b c = true → strLeB a c = true := by
  simp only [strLeB, Bool.not_eq_true']
  intro h1 h2
  rcases h3 : strLtB c a with _ | _
  · rfl
  · rcases h4 : strLtB a b with _ | _
    · have hab := strLtB_connex a b h4 h1
      subst hab
      rw [h3] at h2
      exact h2
    · have := strLtB_trans c a b h3 h4
      rw [this] at h2
      exact h2

theorem strLtB_of_le_of_ne (a b : String) (h : strLeB a b = true) (hne : a ≠ b) :
    strLtB a b = true := by
  simp only [strLeB, Bool.not_eq_true'] at h
  rcases h2 : strLtB a b with _ | _
  · exact absurd (strLtB_connex a b h2 h) hne
  · rfl

theorem strListLtB_asymm (a b : List String) :
    strListLtB a b = true → strListLtB b a = false :=
  lexLt_asymm strLtB strLtB_asymm a b

theorem strListLtB_connex (a b : List String) :
    strListLtB a b = false → strListLtB b a = false → a = b :=
  lexLt_connex strLtB strLtB_connex a b

theorem strListLtB_trans (a b c : List String) :
    strListLtB a b = true → strListLtB b c = true → strListLtB a c = true :=
  lexLt_trans strLtB strLtB_trans strLtB_connex a b c

theorem strListLeB_total (a b : List String) :
    strListLeB a b = true ∨ strListLeB b a = true := by
  simp only [strListLeB, Bool.not_eq_true', Bool.not_eq_false]
  rcases h : strListLtB b a with _ | _
  · exact Or.inl rfl
  · exact Or.inr (strListLtB_asymm b a h)

theorem strListLeB_trans (a b c : List String) :
    strListLeB a b = true → strListLeB b c = true → strListLeB a c = true := by
  simp only [strListLeB, Bool.not_eq_true']
  intro h1 h2
  rcases h3 : strListLtB c a with _ | _
  · rfl
  · rcases h4 : strListLtB a b with _ | _
    · have hab := strListLtB_connex a b h4 h1
      subst hab
      rw [h3] at h2
      exact h2
    · have := strListLtB_trans c a b h3 h4
      rw [this] at h2
      exact h2

theorem strListLtB_of_le_of_ne (a b : List String) (h : strListLeB a b = true)
    (hne : a ≠ b) : strListLtB a b = true := by
  simp only [strListLeB, Bool.not_eq_true'] at h
  rcases h2 : strListLtB a b with _ | _
  · exact absurd (strListLtB_connex a b h2 h) hne
  · rfl

instance : IsTotal String strLE := ⟨strLeB_total⟩

instance : IsTrans String strLE := ⟨strLeB_trans⟩

instance : IsTotal (String × Nat) freqLE := by
  constructor
  intro a b
  rcases Nat.lt_trichotomy a.2 b.2 with h | h | h
  · exact Or.inr (Or.inl h)
  · rcases strLeB_total a.1 b.1 with h' | h'
    · exact Or.inl (Or.inr ⟨h, h'⟩)
    · exact Or.inr (Or.inr ⟨h.symm, h'⟩)
  · exact Or.inl (Or.inl h)

instance : IsTrans (String × Nat) freqLE := by
  constructor
  intro a b c hab hbc
  rcases hab with h1 | ⟨h1, h1'⟩ <;> rcases hbc with h2 | ⟨h2, h2'⟩
  · exact Or.inl (lt_trans h2 h1)
  · exact Or.inl (h2 ▸ h1)
  · exact Or.inl (h1 ▸ h2)
  · exact Or.inr ⟨h1.trans h2, strLeB_trans _ _ _ h1' h2'⟩

instance : IsTotal (List String × Nat) comboLE := by
  constructor
  intro a b
  rcases Nat.lt_trichotomy a.2 b.2 with h | h | h
  · exact Or.inr (Or.inl h)
  · rcases strListLeB_total a.1 b.1 with h' | h'
    · exact Or.inl (Or.inr ⟨h, h'⟩)
    · exact Or.inr (Or.inr ⟨h.symm, h'⟩)
  · exact Or.inl (Or.inl h)

instance : IsTrans (List String × Nat) comboLE := by
  constructor
  intro a b c hab hbc
  rcases hab with h1 | ⟨h1, h1'⟩ <;> rcases hbc with h2 | ⟨h2, h2'⟩
  · exact Or.inl (lt_trans h2 h1)
  · exact Or.inl (h2 ▸ h1)
  · exact Or.inl (h1 ▸ h2)
  · exact Or.inr ⟨h1.trans h2, strListLeB_trans _ _ _ h1' h2'⟩

/-! ## The two traversals emit the same key-path stream -/

mutual
theorem collect_keys_eq : ∀ (v : Value) (pfx : String),
    collect_keys_from_value v pfx = collect_row_keys v pfx
  | .null, _ => rfl
  | .bool _, _ => rfl
  | .num _, _ => rfl
  | .str _, _ => rfl
  | .obj fields, pfx => by
    rw [collect_keys_from_value, collect_row_keys, collect_keys_obj_eq fields pfx]
  | .arr elems, pfx => by
    rw [collect_keys_from_value, collect_row_keys, collect_keys_arr_eq elems 0 pfx]

theorem collect_keys_obj_eq : ∀ (fields : List (String × Value)) (pfx : String),
    collect_keys_from_value_obj fields pfx = collect_row_keys_obj fields pfx
  | [], _ => rfl
  | (k, v) :: rest, pfx => by
    simp only [collect_keys_from_value_obj, collect_row_keys_obj,
      collect_keys_eq v, collect_keys_obj_eq rest pfx]

theorem collect_keys_arr_eq : ∀ (elems : List Value) (i : Nat) (pfx : String),
    collect_keys_from_value_arr elems i pfx = collect_row_keys_arr elems i pfx
  | [], _, _ => rfl
  | v :: rest, i, pfx => by
    simp only [collect_keys_from_value_arr, collect_row_keys_arr,
      collect_keys_eq v, collect_keys_arr_eq rest (i + 1) pfx]
end

/-! ## Membership in the global key set and in row key sets -/

theorem btree_counts_fst (records : List Value) :
    (btree_counts records).map Prod.fst =
      List.insertionSort strLE (all_emissions records).dedup := by
  simp [btree_counts, List.map_map, Function.comp_def]

theorem nodup_btree_fst (records : List Value) :
    ((btree_counts records).map Prod.fst).Nodup := by
  rw [btree_counts_fst]
  exact ((List.perm_insertionSort strLE _).nodup_iff).mpr (List.nodup_dedup _)

theorem analyze_perm (records : List Value) :
    List.Perm (analyze_json_keys records) (btree_counts records) :=
  List.perm_insertionSort freqLE (btree_counts records)

theorem nodup_analyze_fst (records : List Value) :
    ((analyze_json_keys records).map Prod.fst).Nodup :=
  (((analyze_perm records).map Prod.fst).nodup_iff).mpr (nodup_btree_fst records)

theorem mem_global_iff (records : List Value) (k : String) :
    k ∈ get_all_keys_seen_across_dataset records ↔ k ∈ all_emissions records := by
  unfold get_all_keys_seen_across_dataset
  rw [((analyze_perm records).map Prod.fst).mem_iff, btree_counts_fst,
      (List.perm_insertionSort strLE _).mem_iff, List.mem_dedup]

theorem mem_all_emissions (records : List Value) (k : String) :
    k ∈ all_emissions records ↔ ∃ r ∈ records, k ∈ collect_row_keys r "" := by
  simp [all_emissions]

theorem mem_row_iff (v : Value) (k : String) :
    k ∈ get_keys_in_row v ↔ k ∈ collect_row_keys v "" := by
  unfold get_keys_in_row
  rw [List.mem_dedup, collect_keys_eq]

theorem row_subset_global (records : List Value) :
    ∀ r ∈ records, ∀ k ∈ get_keys_in_row r,
      k ∈ get_all_keys_seen_across_dataset records := by
  intro r hr k hk
  rw [mem_global_iff, mem_all_emissions]
  exact ⟨r, hr, (mem_row_iff r k).mp hk⟩

/-! ## The missing-key row list -/

theorem filterMap_ite (p : α → Bool) (g : α → β) (l : List α) :
    (l.filterMap fun x => if p x then some (g x) else none)
      = (l.filter p).map g := by
  induction l with
  | nil => rfl
  | cons a l ih =>
    rcases h : p a with _ | _ <;>
      simp [List.filterMap_cons, List.filter_cons, h, ih]

theorem identify_eq (records : List Value) :
    identify_rows_with_missing_keys records =
      ((records.enum).filter (fun iv =>
        (get_all_keys_seen_across_dataset records).any
          (fun k => !((get_keys_in_row iv.2).contains k)))).map Prod.fst := by
  unfold identify_rows_with_missing_keys
  exact filterMap_ite _ _ _

theorem mem_enum_iff (l : List α) (i : Nat) (v : α) :
    (i, v) ∈ l.enum ↔ ∃ h : i < l.length, l[i] = v := by
  constructor
  · intro h
    obtain ⟨h1, h2⟩ := List.mem_enum h
    exact ⟨h1, h2.symm⟩
  · rintro ⟨h1, h2⟩
    have hlen : i < l.enum.length := by simpa [List.enum_length] using h1
    have hmem := List.getElem_mem hlen
    rw [List.getElem_enum] at hmem
    rwa [h2] at hmem

theorem mem_identify_iff (records : List Value) (i : Nat) :
    i ∈ identify_rows_with_missing_keys records ↔
      ∃ h : i < records.length,
        (get_all_keys_seen_across_dataset records).any
          (fun k => !((get_keys_in_row records[i]).contains k)) = true := by
  rw [identify_eq]
  simp only [List.mem_map, List.mem_filter]
  constructor
  · rintro ⟨⟨j, v⟩, ⟨hmem, hcond⟩, hfst⟩
    simp only at hfst
    subst hfst
    obtain ⟨h1, h2⟩ := (mem_enum_iff records j v).mp hmem
    subst h2
    exact ⟨h1, hcond⟩
  · rintro ⟨h1, hcond⟩
    exact ⟨(i, records[i]),
      ⟨(mem_enum_iff records i records[i]).mpr ⟨h1, rfl⟩, hcond⟩, rfl⟩

/-! ## Key-combination ranking -/

theorem fingerprints_filter_isObj (records : List Value) :
    fingerprints (records.filter Value.isObj) = fingerprints records := by
  induction records with
  | nil => rfl
  | cons v rest ih =>
    cases v <;>
      simp only [fingerprints, Value.isObj, List.filter_cons, List.filterMap_cons,
        Bool.false_eq_true, if_false, if_true] at ih ⊢ <;>
      rw [← ih]

theorem mem_combination_counts (records : List Value) (fp : List String) (c : Nat) :
    (fp, c) ∈ combination_counts records ↔
      fp ∈ (fingerprints records).dedup ∧ c = (fingerprints records).count fp := by
  unfold combination_counts
  rw [List.mem_map]
  constructor
  · rintro ⟨f, hf, heq⟩
    injection heq with h1 h2
    subst h1
    subst h2
    exact ⟨hf, rfl⟩
  · rintro ⟨h1, h2⟩
    exact ⟨fp, h1, by rw [h2]⟩

theorem nodup_combination_fst (records : List Value) :
    ((combination_counts records).map Prod.fst).Nodup := by
  have : (combination_counts records).map Prod.fst =
      (fingerprints records).dedup := by
    simp [combination_counts, List.map_map, Function.comp_def]
  rw [this]
  exact List.nodup_dedup _

/-! ## File loading -/

theorem except_map_ok {ε α β : Type} {e : Except ε α} {f : α → β} {b : β} :
    e.map f = .ok b ↔ ∃ a, e = .ok a ∧ f a = b := by
  cases e <;> simp [Except.map]

theorem except_map_error {ε α β : Type} {e : Except ε α} {f : α → β} {er : ε} :
    e.map f = .error er ↔ e = .error er := by
  cases e <;> simp [Except.map]

theorem load_ok_iff (parse : String → Except String Value) (lines : List String) :
    (∃ vs, FileJsonlReader.load parse lines = .ok vs) ↔
      ∀ line ∈ lines, isBlankLine line = false → ∃ v, parse line = .ok v := by
  induction lines with
  | nil => simp [FileJsonlReader.load]
  | cons line rest ih =>
    rcases hb : isBlankLine line with _ | _
    · rcases hp : parse line with e | v
      · simp only [FileJsonlReader.load, hb, Bool.false_eq_true, if_false, hp]
        constructor
        · rintro ⟨vs, h⟩
          cases h
        · intro hall
          obtain ⟨v, hv⟩ := hall line (List.mem_cons_self line rest) hb
          rw [hp] at hv
          cases hv
      · simp only [FileJsonlReader.load, hb, Bool.false_eq_true, if_false, hp,
          List.forall_mem_cons, forall_const, hp]
        constructor
        · rintro ⟨vs, h⟩
          obtain ⟨vs', h1, _⟩ := except_map_ok.mp h
          exact ⟨⟨v, rfl⟩, ih.mp ⟨vs', h1⟩⟩
        · rintro ⟨_, hrest⟩
          obtain ⟨vs', h1⟩ := ih.mpr hrest
          exact ⟨v :: vs', by rw [h1]; rfl⟩
    · simp only [FileJsonlReader.load, hb, if_true, List.forall_mem_cons, hb]
      rw [ih]
      simp

theorem load_ok_val (parse : String → Except String Value) :
    ∀ (lines : List String) (vs : List Value),
      FileJsonlReader.load parse lines = .ok vs →
      vs = (lines.filter (fun l => !(isBlankLine l))).filterMap
             (fun l => (parse l).toOption)
  | [], vs, h => by
    simp only [FileJsonlReader.load] at h
    cases h
    rfl
  | line :: rest, vs, h => by
    rcases hb : isBlankLine line with _ | _
    · rcases hp : parse line with e | v
      · rw [FileJsonlReader.load, hb, if_neg (by simp), hp] at h
        cases h
      · rw [FileJsonlReader.load, hb, if_neg (by simp), hp] at h
        obtain ⟨vs', h1, h2⟩ := except_map_ok.mp h
        rw [List.filter_cons_of_pos (by simp [hb]), List.filterMap_cons]
        have hopt : (parse line).toOption = some v := by rw [hp]; rfl
        rw [hopt, ← h2, load_ok_val parse rest vs' h1]
    · rw [FileJsonlReader.load, hb, if_pos rfl] at h
      rw [List.filter_cons_of_neg (by simp [hb])]
      exact load_ok_val parse rest vs h

theorem load_error_kind (parse : String → Except String Value) :
    ∀ (lines : List String) (e : IoError),
      FileJsonlReader.load parse lines = .error e → e.kind = ErrorKind.invalidData
  | [], e, h => by cases h
  | line :: rest, e, h => by
    rcases hb : isBlankLine line with _ | _
    · rcases hp : parse line with msg | v
      · rw [FileJsonlReader.load, hb, if_neg (by simp), hp] at h
        cases h
        rfl
      · rw [FileJsonlReader.load, hb, if_neg (by simp), hp] at h
        exact load_error_kind parse rest e (except_map_error.mp h)
    · rw [FileJsonlReader.load, hb, if_pos rfl] at h
      exact load_error_kind parse rest e h

/-! ## Claim theorems -/

/-- C1 counterexample: on the dataset `[{"a":[1,2]}]` the computed Global
Key Set contains the bare path `a` and does not contain `a[0]`, so the
claimed set `{a[0], a[1]}` (with no bare `a`) is not what the code
computes. -/
theorem C1_counterexample :
    "a" ∈ get_all_keys_seen_across_dataset
        [Value.obj [("a", Value.arr [Value.num 1, Value.num 2])]] ∧
    "a[0]" ∉ get_all_keys_seen_across_dataset
        [Value.obj [("a", Value.arr [Value.num 1, Value.num 2])]] := by
  decide

/-- C1 (amended): for the single-record dataset `[{"a":[1,2]}]` the
computed Global Key Set is exactly `{a}` — the bare path of the
array-valued field is present, and the bracketed-index paths `a[0]`,
`a[1]` of the scalar array elements are absent. -/
theorem C1_amended_global_key_set :
    get_all_keys_seen_across_dataset
        [Value.obj [("a", Value.arr [Value.num 1, Value.num 2])]] = ["a"] ∧
    "a[0]" ∉ get_all_keys_seen_across_dataset
        [Value.obj [("a", Value.arr [Value.num 1, Value.num 2])]] ∧
    "a[1]" ∉ get_all_keys_seen_across_dataset
        [Value.obj [("a", Value.arr [Value.num 1, Value.num 2])]] := by
  decide

/-- C2: `collect_keys_from_value` and `collect_row_keys` emit exactly the
same key paths for every JSON value and prefix; consequently the Global
Key Set equals the union over all records of the Row Key Sets, and every
record's Row Key Set is a subset of the Global Key Set. -/
theorem C2_global_is_union_of_rows (records : List Value) :
    (∀ (v : Value) (pfx : String),
        collect_keys_from_value v pfx = collect_row_keys v pfx) ∧
    (∀ k, k ∈ get_all_keys_seen_across_dataset records ↔
        ∃ r ∈ records, k ∈ get_keys_in_row r) ∧
    (∀ r ∈ records, ∀ k ∈ get_keys_in_row r,
        k ∈ get_all_keys_seen_across_dataset records) := by
  refine ⟨collect_keys_eq, fun k => ?_, row_subset_global records⟩
  rw [mem_global_iff, mem_all_emissions]
  constructor
  · rintro ⟨r, hr, hk⟩
    exact ⟨r, hr, (mem_row_iff r k).mpr hk⟩
  · rintro ⟨r, hr, hk⟩
    exact ⟨r, hr, (mem_row_iff r k).mp hk⟩

/-- Witness for C2 at a concrete dataset. -/
theorem C2_witness :
    "a" ∈ get_all_keys_seen_across_dataset
      [Value.obj [("a", Value.num 1)], Value.obj []] :=
  (C2_global_is_union_of_rows [Value.obj [("a", Value.num 1)], Value.obj []]).2.2
    (Value.obj [("a", Value.num 1)]) (List.mem_cons_self _ _) "a" (by decide)

/-- C3: a record's index appears in the missing-key list iff its Row Key
Set differs (as a set) from the Global Key Set; in particular an
empty-object record is flagged iff the Global Key Set is non-empty. -/
theorem C3_missing_iff_row_ne_global (records : List Value) (i : Nat)
    (h : i < records.length) :
    (i ∈ identify_rows_with_missing_keys records ↔
        (get_keys_in_row records[i]).toFinset ≠
          (get_all_keys_seen_across_dataset records).toFinset) ∧
    (records[i] = Value.obj [] →
      (i ∈ identify_rows_with_missing_keys records ↔
        get_all_keys_seen_across_dataset records ≠ [])) := by
  have hsub : ∀ k ∈ get_keys_in_row records[i],
      k ∈ get_all_keys_seen_across_dataset records :=
    row_subset_global records records[i] (List.getElem_mem h)
  have hmain : i ∈ identify_rows_with_missing_keys records ↔
      ∃ k ∈ get_all_keys_seen_across_dataset records,
        k ∉ get_keys_in_row records[i] := by
    rw [mem_identify_iff]
    constructor
    · rintro ⟨_, hc⟩
      simpa using hc
    · intro hex
      exact ⟨h, by simpa using hex⟩
  constructor
  · rw [hmain]
    constructor
    · rintro ⟨k, hkG, hkR⟩ heq
      have : k ∈ (get_keys_in_row records[i]).toFinset := by
        rw [heq]
        exact List.mem_toFinset.mpr hkG
      exact hkR (List.mem_toFinset.mp this)
    · intro hne
      by_contra hnex
      push_neg at hnex
      apply hne
      ext a
      simp only [List.mem_toFinset]
      exact ⟨fun ha => hsub a ha, fun ha => hnex a ha⟩
  · intro hobj
    rw [hmain, hobj]
    constructor
    · rintro ⟨k, hkG, _⟩ hnil
      rw [hnil] at hkG
      exact absurd hkG (List.not_mem_nil k)
    · intro hne
      obtain ⟨k, hk⟩ := List.exists_mem_of_ne_nil _ hne
      refine ⟨k, hk, ?_⟩
      intro hmem
      have hrow : get_keys_in_row (Value.obj []) = [] := rfl
      rw [hrow] at hmem
      exact absurd hmem (List.not_mem_nil k)

/-- Witness for C3: record 1 (an empty object) of a two-record dataset is
flagged. -/
theorem C3_witness :
    1 ∈ identify_rows_with_missing_keys
        [Value.obj [("a", Value.num 1)], Value.obj []] :=
  ((C3_missing_iff_row_ne_global [Value.obj [("a", Value.num 1)], Value.obj []] 1
      (by decide)).1).mpr (by decide)

/-- C4: the frequency table is sorted in the deterministic total order
"higher count first, ties by lexicographically smaller key path first";
as a pure function of the record sequence it returns the identical table
for identical input. -/
theorem C4_freq_table_sorted (records : List Value) :
    (analyze_json_keys records).Pairwise
      (fun a b : String × Nat =>
        b.2 < a.2 ∨ (a.2 = b.2 ∧ strLtB a.1 b.1 = true)) := by
  have hs : (analyze_json_keys records).Pairwise freqLE :=
    List.sorted_insertionSort freqLE (btree_counts records)
  have hne : (analyze_json_keys records).Pairwise (fun a b => a.1 ≠ b.1) :=
    List.pairwise_map.mp (nodup_analyze_fst records)
  refine (hs.and hne).imp ?_
  rintro a b ⟨hle | ⟨heq, hle⟩, hne'⟩
  · exact Or.inl hle
  · exact Or.inr ⟨heq, strLtB_of_le_of_ne a.1 b.1 hle hne'⟩

/-- C5: only object records contribute fingerprints; every returned entry
carries the exact record count of its fingerprint; entries are ordered by
descending count with ties by ascending lexicographic fingerprint; when
`n` is at least the number of distinct fingerprints all of them are
returned; and the top-1 combination of `[{"a":1,"b":2},{"a":1,"b":2},
{"c":3}]` is `(["a","b"], 2)`. -/
theorem C5_top_key_combinations :
    (∀ (records : List Value) (n : Nat),
      get_top_key_combinations records n =
        get_top_key_combinations (records.filter Value.isObj) n ∧
      (∀ fp c, (fp, c) ∈ get_top_key_combinations records n →
        c = (fingerprints records).count fp ∧ 0 < c) ∧
      (get_top_key_combinations records n).Pairwise
        (fun a b => b.2 < a.2 ∨ (a.2 = b.2 ∧ strListLtB a.1 b.1 = true)) ∧
      ((fingerprints records).dedup.length ≤ n →
        ∀ fp ∈ (fingerprints records).dedup,
          (fp, (fingerprints records).count fp) ∈
            get_top_key_combinations records n)) ∧
    get_top_key_combinations
      [Value.obj [("a", Value.num 1), ("b", Value.num 2)],
       Value.obj [("a", Value.num 1), ("b", Value.num 2)],
       Value.obj [("c", Value.num 3)]] 1 = [(["a", "b"], 2)] := by
  constructor
  · intro records n
    refine ⟨?_, ?_, ?_, ?_⟩
    · unfold get_top_key_combinations combination_counts
      rw [fingerprints_filter_isObj]
    · intro fp c hmem
      unfold get_top_key_combinations at hmem
      have h1 : (fp, c) ∈ List.insertionSort comboLE (combination_counts records) :=
        List.take_subset n _ hmem
      have h2 : (fp, c) ∈ combination_counts records :=
        (List.perm_insertionSort comboLE _).mem_iff.mp h1
      obtain ⟨hfp, hc⟩ := (mem_combination_counts records fp c).mp h2
      refine ⟨hc, ?_⟩
      rw [hc]
      exact List.count_pos_iff.mpr (List.mem_dedup.mp hfp)
    · unfold get_top_key_combinations
      have hs : (List.insertionSort comboLE
          (combination_counts records)).Pairwise comboLE :=
        List.sorted_insertionSort comboLE (combination_counts records)
      have hnodup : ((List.insertionSort comboLE
          (combination_counts records)).map Prod.fst).Nodup :=
        (((List.perm_insertionSort comboLE _).map Prod.fst).nodup_iff).mpr
          (nodup_combination_fst records)
      have hne : (List.insertionSort comboLE (combination_counts records)).Pairwise
          (fun a b => a.1 ≠ b.1) := List.pairwise_map.mp hnodup
      refine List.Pairwise.sublist (List.take_sublist n _) ?_
      refine (hs.and hne).imp ?_
      rintro a b ⟨hle | ⟨heq, hle⟩, hne'⟩
      · exact Or.inl hle
      · exact Or.inr ⟨heq, strListLtB_of_le_of_ne a.1 b.1 hle hne'⟩
    · intro hn fp hfp
      have hlen : (List.insertionSort comboLE
          (combination_counts records)).length ≤ n := by
        rw [(List.perm_insertionSort comboLE _).length_eq]
        simpa [combination_counts] using hn
      unfold get_top_key_combinations
      rw [List.take_of_length_le hlen]
      exact (List.perm_insertionSort comboLE _).mem_iff.mpr
        ((mem_combination_counts records fp _).mpr ⟨hfp, rfl⟩)
  · decide

/-- Witness for C5 at the Scenario D dataset with n = 2 (more than the
two distinct fingerprints would need is n = 2, so both are returned). -/
theorem C5_witness :
    (["a", "b"],
      (fingerprints
        [Value.obj [("a", Value.num 1), ("b", Value.num 2)],
         Value.obj [("a", Value.num 1), ("b", Value.num 2)],
         Value.obj [("c", Value.num 3)]]).count ["a", "b"]) ∈
      get_top_key_combinations
        [Value.obj [("a", Value.num 1), ("b", Value.num 2)],
         Value.obj [("a", Value.num 1), ("b", Value.num 2)],
         Value.obj [("c", Value.num 3)]] 2 :=
  ((C5_top_key_combinations.1 _ 2).2.2.2 (by decide) ["a", "b"] (by decide))

/-- C6: `replace_record` at an index at or beyond the current length fails
with the `InvalidInput` "Index i out of bounds" error and returns the
handle state completely unchanged — record sequence and all three cached
analysis results included. -/
theorem C6_replace_invalid_index (d : JsonlData) (i : Nat) (v : Value)
    (h : d.data.length ≤ i) :
    d.replace_record i v =
      (Except.error { kind := ErrorKind.invalidInput
                    , msg := "Index " ++ toString i ++ " out of bounds" }, d) := by
  unfold JsonlData.replace_record MemoryJsonlReader.replace
  rw [if_neg (by omega)]

/-- Witness for C6: replacing index 5 of a two-record handle fails and
leaves the handle unchanged. -/
theorem C6_witness :
    (JsonlData.ofRecords [Value.obj [("a", Value.num 1)],
        Value.obj []]).replace_record 5 (Value.obj []) =
      (Except.error { kind := ErrorKind.invalidInput
                    , msg := "Index " ++ toString 5 ++ " out of bounds" },
       JsonlData.ofRecords [Value.obj [("a", Value.num 1)], Value.obj []]) :=
  C6_replace_invalid_index _ 5 _ (by decide)

/-- C7: a `replace_record` at a valid index succeeds and every cached
analysis field equals the from-scratch analysis of the updated record
sequence; a key path emitted only by the replaced record and not by the
new value disappears from the cached Global Key Set and frequency
table. -/
theorem C7_replace_valid_recomputes (d : JsonlData) (i : Nat) (v : Value)
    (h : i < d.data.length) :
    (d.replace_record i v).1 = Except.ok () ∧
    (d.replace_record i v).2.data = d.data.set i v ∧
    (d.replace_record i v).2.keys_seen =
      get_all_keys_seen_across_dataset (d.data.set i v) ∧
    (d.replace_record i v).2.key_freqs = analyze_json_keys (d.data.set i v) ∧
    (d.replace_record i v).2.rows_with_missing_keys =
      identify_rows_with_missing_keys (d.data.set i v) ∧
    (∀ p, (∀ j, ∀ hj : j < d.data.length, j ≠ i →
            p ∉ get_keys_in_row (d.data[j])) →
        p ∉ get_keys_in_row v →
        (p ∉ (d.replace_record i v).2.keys_seen ∧
         ∀ c, (p, c) ∉ (d.replace_record i v).2.key_freqs)) := by
  have hre : d.replace_record i v =
      (Except.ok (), JsonlData.ofRecords (d.data.set i v)) := by
    unfold JsonlData.replace_record MemoryJsonlReader.replace
    rw [if_pos h]
  rw [hre]
  refine ⟨rfl, rfl, rfl, rfl, rfl, ?_⟩
  intro p hothers hnew
  have hglobal : p ∉ get_all_keys_seen_across_dataset (d.data.set i v) := by
    rw [mem_global_iff, mem_all_emissions]
    rintro ⟨r, hr, hp⟩
    obtain ⟨j, hj, hget⟩ := List.mem_iff_getElem.mp hr
    rw [List.length_set] at hj
    by_cases hji : j = i
    · subst hji
      rw [List.getElem_set_self] at hget
      subst hget
      exact hnew ((mem_row_iff v p).mpr hp)
    · rw [List.getElem_set_ne (Ne.symm hji)] at hget
      subst hget
      exact hothers j hj hji ((mem_row_iff _ p).mpr hp)
  refine ⟨hglobal, ?_⟩
  intro c hpc
  exact hglobal (List.mem_map_of_mem Prod.fst hpc)

/-- Witness for C7: after replacing record 0 (the sole holder of key
path `x`) with a record not containing `x`, the cached Global Key Set no
longer contains `x`. -/
theorem C7_witness :
    "x" ∉ ((JsonlData.ofRecords [Value.obj [("x", Value.num 1)],
        Value.obj [("y", Value.num 2)]]).replace_record 0
        (Value.obj [("y", Value.num 3)])).2.keys_seen :=
  ((C7_replace_valid_recomputes _ 0 _ (by decide)).2.2.2.2.2 "x"
    (by
      intro j hj hne
      have hj2 : j < 2 := hj
      interval_cases j
      · exact absurd rfl hne
      · exact (by decide : "x" ∉ get_keys_in_row (Value.obj [("y", Value.num 2)])))
    (by decide)).1

/-- C8: file/text loading skips blank lines, succeeds iff every non-blank
line parses as JSON, yields exactly the parsed non-blank lines on success,
fails with a Parse-kind (`InvalidData`) error otherwise, and a load
failure makes handle construction fail with that same error, retaining no
records. -/
theorem C8_load_and_construction (parse : String → Except String Value)
    (lines : List String) :
    ((∃ vs, FileJsonlReader.load parse lines = .ok vs) ↔
        ∀ line ∈ lines, isBlankLine line = false → ∃ v, parse line = .ok v) ∧
    (∀ vs, FileJsonlReader.load parse lines = .ok vs →
        vs = (lines.filter (fun l => !(isBlankLine l))).filterMap
               (fun l => (parse l).toOption)) ∧
    (∀ e, FileJsonlReader.load parse lines = .error e →
        e.kind = ErrorKind.invalidData) ∧
    (∀ e, FileJsonlReader.load parse lines = .error e →
        JsonlData.newFile parse lines = .error e) := by
  refine ⟨load_ok_iff parse lines, load_ok_val parse lines,
    load_error_kind parse lines, ?_⟩
  intro e he
  unfold JsonlData.newFile
  rw [he]
  rfl

/-- Witness for C8: one malformed line among a valid line and a blank line
fails construction with the parse error. -/
theorem C8_witness :
    JsonlData.newFile
        (fun s => if s = "1" then Except.ok (Value.num 1)
                  else Except.error "bad")
        ["1", " ", "x"] =
      Except.error { kind := ErrorKind.invalidData, msg := "bad" } :=
  (C8_load_and_construction
      (fun s => if s = "1" then Except.ok (Value.num 1)
                else Except.error "bad")
      ["1", " ", "x"]).2.2.2 _ rfl

/-- C9: the network-backed `load` unconditionally fails with the
Unsupported-kind error for every URL and every data content, so handle
construction over a network-backed source always fails and never yields a
handle. -/
theorem C9_http_always_fails (url : String) (data : List Value) :
    HttpJsonlReader.load url data =
      Except.error (HttpError.other "HTTP reader not yet implemented") ∧
    JsonlData.newHttp url data =
      Except.error (HttpError.other "HTTP reader not yet implemented") :=
  ⟨rfl, rfl⟩

/-- C10: the missing-key list is a strictly increasing sequence of indices
each below the record count; it is exactly what construction caches, and
every successful `replace_record` re-caches it for the updated records. -/
theorem C10_missing_list_invariant (records : List Value) :
    (identify_rows_with_missing_keys records).Pairwise (· < ·) ∧
    (∀ i ∈ identify_rows_with_missing_keys records, i < records.length) ∧
    (JsonlData.ofRecords records).rows_with_missing_keys =
      identify_rows_with_missing_keys records ∧
    (∀ (d : JsonlData) (i : Nat) (v : Value) (d2 : JsonlData),
        d.replace_record i v = (Except.ok (), d2) →
        d2.rows_with_missing_keys =
          identify_rows_with_missing_keys d2.data) := by
  have hsub : (identify_rows_with_missing_keys records).Sublist
      ((records.enum).map Prod.fst) := by
    rw [identify_eq]
    exact List.Sublist.map Prod.fst (List.filter_sublist _)
  have hrange : (records.enum).map Prod.fst = List.range records.length :=
    List.enum_map_fst records
  refine ⟨?_, ?_, rfl, ?_⟩
  · refine List.Pairwise.sublist hsub ?_
    rw [hrange]
    exact List.pairwise_lt_range records.length
  · intro i hi
    have hmem := hsub.subset hi
    rw [hrange] at hmem
    exact List.mem_range.mp hmem
  · intro d i v d2 he
    unfold JsonlData.replace_record at he
    rcases hrep : MemoryJsonlReader.replace d.data i v with e | newData
    · rw [hrep] at he
      injection he with h1 h2
      cases h1
    · rw [hrep] at he
      injection he with h1 h2
      rw [← h2]
      rfl

/-- Witness for C10's replace_record conjunct at a concrete handle. -/
theorem C10_witness :
    ((JsonlData.ofRecords [Value.obj [("a", Value.num 1)], Value.obj []]
        |>.replace_record 0 (Value.obj [("b", Value.num 2)])).2).rows_with_missing_keys =
      identify_rows_with_missing_keys
        ((JsonlData.ofRecords [Value.obj [("a", Value.num 1)], Value.obj []]
          |>.replace_record 0 (Value.obj [("b", Value.num 2)])).2).data :=
  (C10_missing_list_invariant []).2.2.2
    (JsonlData.ofRecords [Value.obj [("a", Value.num 1)], Value.obj []]) 0
    (Value.obj [("b", Value.num 2)])
    ((JsonlData.ofRecords [Value.obj [("a", Value.num 1)], Value.obj []]
      |>.replace_record 0 (Value.obj [("b", Value.num 2)])).2)
    rfl

end Jsonl
